import Mathlib

/-!
Verification of the matching and command-assembly logic of `merge_media.py`.

The script matches video files against auxiliary audio (`.mka`) and subtitle
(`.ass`) files found in group subdirectories of the class roots `RUS Sound`
and `RUS Subs`, then assembles a single ffmpeg invocation per video.

The matching is done in Python with
`re.match("^" + re.escape(base_name) + ".*\\.mka$", filename)`.
We embed exactly the regular-expression dialect these generated patterns use:
literal characters, backslash-escaped characters, `.`, `*` (postfix), and the
anchors `^`/`$`.  Since every generated pattern is wrapped in `^...$` and used
with `re.match`, the match is a full match of the pattern body; the anchors
therefore compile away.  `.` is modelled as matching any character and `$` as
end of input; this is exact on single-line filenames, the domain of this
program (Python's `.` excludes the newline character and `$` also accepts a
position before a trailing newline).
-/

namespace MergeMedia

/-- An atom of the regular-expression dialect: a literal character or `.`. -/

inductive Atom where
  | achr (c : Char)
  | adot
deriving DecidableEq

/-- Regular expressions as generated by the script's patterns, plus the
alternation needed to form Brzozowski derivatives of sequences. -/

inductive Re where
  | emp
  | eps
  | lit (a : Atom)
  | star (a : Atom)
  | seq (p q : Re)
  | alt (p q : Re)
deriving DecidableEq

/-- Whether an atom matches one character. -/

def amatch : Atom → Char → Bool
  | .achr d, c => c == d
  | .adot, _ => true

/-- Whether a regular expression accepts the empty string. -/

def nullable : Re → Bool
  | .emp => false
  | .eps => true
  | .lit _ => false
  | .star _ => true
  | .seq p q => nullable p && nullable q
  | .alt p q => nullable p || nullable q

/-- Brzozowski derivative of a regular expression by one character. -/

def derivC : Re → Char → Re
  | .emp, _ => .emp
  | .eps, _ => .emp
  | .lit a, c => if amatch a c then .eps else .emp
  | .star a, c => if amatch a c then .star a else .emp
  | .seq p q, c =>
      if nullable p then .alt (.seq (derivC p c) q) (derivC q c)
      else .seq (derivC p c) q
  | .alt p q, c => .alt (derivC p c) (derivC q c)

/-- Executable full match of a regular expression against a character list. -/

def rmatch (r : Re) (s : List Char) : Bool := nullable (s.foldl derivC r)

/-- Denotational language of the regular-expression dialect.  The Kleene star
is only ever applied to a single atom, so its language is simply the strings
all of whose characters match the atom. -/

def Lang : Re → List Char → Prop
  | .emp, _ => False
  | .eps, s => s = []
  | .lit a, s => ∃ c, s = [c] ∧ amatch a c = true
  | .star a, s => ∀ c ∈ s, amatch a c = true
  | .seq p q, s => ∃ u v, s = u ++ v ∧ Lang p u ∧ Lang q v
  | .alt p q, s => Lang p s ∨ Lang q s

/-- The characters that `re.escape` prefixes with a backslash (the special
characters of Python's `re` dialect, as in CPython's `re` module). -/

def reSpecials : List Char :=
  ['(', ')', '[', ']', Char.ofNat 123, Char.ofNat 125, '?', '*', '+', '-', '|',
   '^', '$', '\\', '.', '&', '~', '#', ' ', '\t', '\n', '\r',
   Char.ofNat 11, Char.ofNat 12]

/-- Python `re.escape` on a character list: special characters get a backslash. -/

def escapeL : List Char → List Char
  | [] => []
  | c :: rest => if c ∈ reSpecials then '\\' :: c :: escapeL rest else c :: escapeL rest

/-- Python `re.escape(base_name)` as used at source line 29. -/

def escape (s : String) : String := String.mk (escapeL s.data)

/-- Tokens of the pattern dialect: a (possibly escaped) literal character,
`.`, and `*`.  The anchors `^`/`$` lex to nothing because the generated
patterns are `^...$`-wrapped and matched in full (see the file comment). -/

inductive Tok where
  | tchr (c : Char)
  | tdot
  | tstar
deriving DecidableEq

/-- Lexer for the pattern dialect: `\c` is the literal `c`, `.` and `*` are
operators, `^` and `$` are anchors. -/

def lexPat : List Char → List Tok
  | [] => []
  | c :: rest =>
    if c = '\\' then
      match rest with
      | [] => []
      | d :: rest2 => .tchr d :: lexPat rest2
    else if c = '.' then .tdot :: lexPat rest
    else if c = '*' then .tstar :: lexPat rest
    else if c = '^' ∨ c = '$' then lexPat rest
    else .tchr c :: lexPat rest

/-- Compile a token list to a regular expression; `*` applies to the atom
immediately before it. -/

def parseToks : List Tok → Re
  | [] => .eps
  | .tchr c :: .tstar :: rest => .seq (.star (.achr c)) (parseToks rest)
  | .tchr c :: rest => .seq (.lit (.achr c)) (parseToks rest)
  | .tdot :: .tstar :: rest => .seq (.star .adot) (parseToks rest)
  | .tdot :: rest => .seq (.lit .adot) (parseToks rest)
  | .tstar :: rest => parseToks rest

/-- The pattern built at source lines 56 and 82:
`f"^{base_name_escaped}.*\\.{ext}$"` with `ext` being `mka` or `ass`. -/

def pyPattern (baseEscaped ext : String) : String :=
  "^" ++ baseEscaped ++ ".*\\." ++ ext ++ "$"

/-- Python `re.match(pattern, filename)` as used at source lines 60 and 86:
the pattern is `^...$`-anchored, so this is a full match. -/

def pymatch (base ext name : String) : Bool :=
  rmatch (parseToks (lexPat (pyPattern (escape base) ext).data)) name.data

/-- A sequence of literal-character atoms in front of a continuation. -/

def seqLits (l : List Char) (k : Re) : Re :=
  l.foldr (fun c r => .seq (.lit (.achr c)) r) k

/-! ## Filesystem model and the per-video pipeline

The directory-walking and file-listing primitives (`os.listdir`, `glob.glob`,
`os.path.isdir`) are external collaborators; we model the relevant slice of
the filesystem as the entry lists of the two class roots `RUS Sound` and
`RUS Subs`.  An entry has a name, a directory flag, and (for directories) the
names `os.listdir` returns inside it, in traversal order.  Paths are joined
with `/` as `os.path.join` does for relative components. -/

/-- One entry of a class-root directory. -/

structure FSEntry where
  name : String
  isDir : Bool
  listing : List String
deriving DecidableEq

/-- Python `os.path.basename`: the part after the last `/`. -/

def basename (p : String) : String :=
  String.mk ((p.data.reverse.takeWhile (fun c => c != '/')).reverse)

/-- The stem of `os.path.splitext`: split at the last dot, unless every
character before it is a dot (CPython semantics for names like `.bashrc`). -/

def splitextBaseL (l : List Char) : List Char :=
  let after := l.reverse.takeWhile (fun c => c != '.')
  if after.length = l.length then l
  else
    let stem := l.take (l.length - after.length - 1)
    if stem.any (fun c => c != '.') then stem else l

/-- The stem `os.path.splitext(video_filename)[0]` as at source line 28. -/

def splitextBase (s : String) : String := String.mk (splitextBaseL s.data)

/-- Observable effects of one `process_video` call: the warnings and log
records it emits, the check-only report, the destination-directory creation,
and the single external muxing invocation with its full argument list. -/

inductive Ev where
  | warnGroupMissing (cls g : String)
  | report (audio subs : List (String × String))
  | warnNoMatches (v : String)
  | mkdirDest (d : String)
  | runMux (args : List String)
  | logError (m : String)
  | logSuccess (m : String)
deriving DecidableEq

/-- Group selection when an explicit allow-list is given (source lines 42-49
and 68-75): existing named subdirectories are kept with their listing, each
missing one yields a warning. -/

def selectNamed (root : List FSEntry) (cls : String) :
    List String → List (String × List String) × List Ev
  | [] => ([], [])
  | g :: gs =>
      let r := selectNamed root cls gs
      match root.find? (fun e => e.name == g && e.isDir) with
      | some e => ((g, e.listing) :: r.1, r.2)
      | none => (r.1, Ev.warnGroupMissing cls g :: r.2)

/-- Group selection without an allow-list (source lines 52-53 and 78-79):
`glob(os.path.join(root, "*"))` filtered to directories.  `glob`'s `*` does
not match names beginning with a dot. -/

def selectAll (root : List FSEntry) : List (String × List String) :=
  (root.filter (fun e => e.isDir && !(e.name.data.head? == some '.'))).map
    (fun e => (e.name, e.listing))

/-- Group enumeration for one class.  Python's `if audio_groups:` treats both
`None` and the empty list as absent. -/

def selectGroups (root : List FSEntry) (cls : String) (allow : Option (List String)) :
    List (String × List String) × List Ev :=
  match allow with
  | some gs => if gs = [] then (selectAll root, []) else selectNamed root cls gs
  | none => (selectAll root, [])

/-- The matching loop over one class (source lines 55-64 and 81-90): for each
selected group, every listed name matching the pattern is appended as
`(joined path, group name)`. -/

def searchClass (source cls : String) (root : List FSEntry) (allow : Option (List String))
    (base ext : String) : List (String × String) × List Ev :=
  let sel := selectGroups root cls allow
  (sel.1.flatMap (fun gd =>
      (gd.2.filter (fun n => pymatch base ext n)).map
        (fun f => (source ++ "/" ++ cls ++ "/" ++ gd.1 ++ "/" ++ f, gd.1))),
   sel.2)

/-- The audio loop of the command builder (source lines 116-124), threading
`inputs`, `maps`, `metadata_options` and `stream_index`. -/

def addAudio : List String → List String → List String → Nat →
    List (String × String) → List String × List String × List String × Nat
  | inputs, maps, meta, si, [] => (inputs, maps, meta, si)
  | inputs, maps, meta, si, (f, g) :: rest =>
      let inputs2 := inputs ++ ["-i", f]
      addAudio inputs2
        (maps ++ ["-map", toString (inputs2.length / 2 - 1) ++ ":a"])
        (meta ++ ["-metadata:s:a:" ++ toString si, "language=rus",
                  "-metadata:s:a:" ++ toString si, "title=" ++ g])
        (si + 1) rest

/-- The subtitle loop of the command builder (source lines 128-136). -/

def addSubs : List String → List String → List String → Nat →
    List (String × String) → List String × List String × List String × Nat
  | inputs, maps, meta, si, [] => (inputs, maps, meta, si)
  | inputs, maps, meta, si, (f, g) :: rest =>
      let inputs2 := inputs ++ ["-i", f]
      addSubs inputs2
        (maps ++ ["-map", toString (inputs2.length / 2 - 1) ++ ":s"])
        (meta ++ ["-metadata:s:s:" ++ toString si, "language=rus",
                  "-metadata:s:s:" ++ toString si, "title=" ++ g])
        (si + 1) rest

/-- The complete ffmpeg argument list (source lines 107-141). -/

def buildCmd (videoPath destDir vfn : String) (audio subs : List (String × String)) :
    List String :=
  let r1 := addAudio ["-i", videoPath] ["-map", "0:v", "-map", "0:a"]
      ["-metadata:s:v:0", "language=jpn", "-metadata:s:a:0", "language=jpn"] 1 audio
  let r2 := addSubs r1.1 r1.2.1 r1.2.2.1 0 subs
  ["ffmpeg", "-y"] ++ r2.1 ++ r2.2.1 ++ ["-c:v", "copy", "-c:a", "copy", "-c:s", "copy"]
    ++ r2.2.2.1 ++ [destDir ++ "/" ++ vfn]

/-- The function process_video (source lines 26-151) as a trace of observable effects.
The muxing process is an external collaborator: its exit status and captured
standard error are parameters. -/

def processVideo (videoPath sourceDir destDir : String) (audioRoot subsRoot : List FSEntry)
    (allowA allowS : Option (List String)) (checkOnly : Bool)
    (muxExit : Nat) (muxErr : String) : List Ev :=
  let vfn := basename videoPath
  let base := splitextBase vfn
  let ra := searchClass sourceDir "RUS Sound" audioRoot allowA base "mka"
  let rs := searchClass sourceDir "RUS Subs" subsRoot allowS base "ass"
  ra.2 ++ rs.2 ++
    (if checkOnly then [Ev.report ra.1 rs.1]
     else if ra.1 = [] ∧ rs.1 = [] then [Ev.warnNoMatches vfn]
     else
       [Ev.mkdirDest destDir, Ev.runMux (buildCmd videoPath destDir vfn ra.1 rs.1)] ++
         (if muxExit = 0 then
            [Ev.logSuccess ("Файл успешно сохранен: " ++ destDir ++ "/" ++ vfn)]
          else
            [Ev.logError ("Ошибка при обработке файла " ++ vfn ++ ": " ++ muxErr)]))

/-- One video job of the main loop: the video path and the outcome of its
muxing invocation. -/

structure Job where
  videoPath : String
  muxExit : Nat
  muxErr : String
deriving DecidableEq

/-- The main processing loop over the discovered videos (source line 189,
with the default single worker, i.e. sequential order). -/

def runAll (sourceDir destDir : String) (audioRoot subsRoot : List FSEntry)
    (allowA allowS : Option (List String)) : List Job → List Ev
  | [] => []
  | j :: rest =>
      processVideo j.videoPath sourceDir destDir audioRoot subsRoot allowA allowS false
          j.muxExit j.muxErr
        ++ runAll sourceDir destDir audioRoot subsRoot allowA allowS rest

/-- The muxer invocations contained in a trace. -/

def muxCalls (t : List Ev) : List (List String) :=
  t.filterMap (fun e => match e with | .runMux a => some a | _ => none)

/-! ## Characterization of the command builder -/

/-- The `-i` input declarations contributed by a list of matched assets. -/

def inputsOf (l : List (String × String)) : List String :=
  l.flatMap (fun p => ["-i", p.1])

/-- The `-map` selectors for consecutive input indices starting at `m`. -/

def mapsFrom (sfx : String) : Nat → List (String × String) → List String
  | _, [] => []
  | m, _ :: rest => ["-map", toString m ++ sfx] ++ mapsFrom sfx (m + 1) rest

/-- The per-asset metadata tags for consecutive output stream indices
starting at `si`: a language tag and a title tag carrying the group label. -/

def metaTags (pre : String) : Nat → List (String × String) → List String
  | _, [] => []
  | si, (_, g) :: rest =>
      [pre ++ toString si, "language=rus", pre ++ toString si, "title=" ++ g]
        ++ metaTags pre (si + 1) rest

/-! ## The numeric-key strategy and the on-screen-text subdirectory

The spec describes two matching strategies; only the prefix strategy is
implemented by the script under `src/`.  The numeric-key strategy and the
special on-screen-text subdirectory of the audio search belong to repository
code that is not included there, so they are modelled from the spec. -/

/-- Modelled from the spec: the numeric-key strategy's extraction of the
first maximal run of decimal digits of a filename (the strategy's
implementation is not under `src/`; §4.1: "extract the first maximal run of
decimal digits in a filename").  Returns `none` when the filename contains
no digit ("key unresolved"). -/

def firstDigitRun : List Char → Option (List Char)
  | [] => none
  | c :: rest =>
      if c.isDigit then some (c :: rest.takeWhile Char.isDigit) else firstDigitRun rest

/-- Modelled from the spec: the numeric-key EpisodeKey, the first digit run
with leading zeros stripped (§4.1). -/

def episodeKeyNum (s : String) : Option String :=
  (firstDigitRun s.data).map (fun r => String.mk (r.dropWhile (fun c => c == '0')))

/-- Modelled from the spec: under the numeric-key strategy a video and an
auxiliary file match iff their EpisodeKeys are equal (string equality after
stripping); a video without a key is skipped, so nothing matches it. -/

def numericMatches (v a : String) : Bool :=
  match episodeKeyNum v, episodeKeyNum a with
  | some kv, some ka => kv == ka
  | _, _ => false

/-- Modelled from the spec: the audio search "additionally scans one special
nested subdirectory reserved for on-screen-text tracks, merging its results
into the audio set with its own directory name as the group label" (§4.1);
this scan is not part of the script under `src/`.  `signs` is that
subdirectory's name and `signsListing` its file listing. -/

def audioSearchWithSigns (source : String) (root : List FSEntry)
    (allow : Option (List String)) (base signs : String) (signsListing : List String) :
    List (String × String) :=
  (searchClass source "RUS Sound" root allow base "mka").1
    ++ (signsListing.filter (fun n => pymatch base "mka" n)).map
        (fun f => (source ++ "/RUS Sound/" ++ signs ++ "/" ++ f, signs))

/-! ## Theorems -/

theorem nullable_iff (r : Re) : nullable r = true ↔ Lang r [] := by
  induction r with
  | emp => simp [nullable, Lang]
  | eps => simp [nullable, Lang]
  | lit a => simp [nullable, Lang]
  | star a => simp [nullable, Lang]
  | seq p q ihp ihq =>
      simp only [nullable, Lang, Bool.and_eq_true, ihp, ihq]
      constructor
      · rintro ⟨hp, hq⟩
        exact ⟨[], [], rfl, hp, hq⟩
      · rintro ⟨u, v, huv, hp, hq⟩
        rcases List.append_eq_nil.mp huv.symm with ⟨hu, hv⟩
        subst hu; subst hv
        exact ⟨hp, hq⟩
  | alt p q ihp ihq =>
      simp [nullable, Lang, ihp, ihq]

theorem deriv_lang (r : Re) (c : Char) : ∀ s, Lang (derivC r c) s ↔ Lang r (c :: s) := by
  induction r with
  | emp => intro s; simp [derivC, Lang]
  | eps => intro s; simp [derivC, Lang]
  | lit a =>
      intro s
      by_cases h : amatch a c = true
      · simp only [derivC, if_pos h, Lang]
        constructor
        · intro hs; exact ⟨c, by simp [hs], h⟩
        · rintro ⟨d, hd, hm⟩
          injection hd
      · simp only [derivC, if_neg h, Lang]
        constructor
        · intro hf; exact hf.elim
        · rintro ⟨d, hd, hm⟩
          injection hd with h1 h2
          subst h1
          exact h hm
  | star a =>
      intro s
      by_cases h : amatch a c = true
      · simp only [derivC, if_pos h, Lang]
        constructor
        · intro hs d hd
          rcases List.mem_cons.mp hd with h1 | h2
          · subst h1; exact h
          · exact hs d h2
        · intro hs d hd
          exact hs d (List.mem_cons_of_mem _ hd)
      · simp only [derivC, if_neg h, Lang]
        constructor
        · intro hf; exact hf.elim
        · intro hs
          exact h (hs c (List.mem_cons_self c s))
  | seq p q ihp ihq =>
      intro s
      by_cases hn : nullable p = true
      · simp only [derivC, if_pos hn, Lang]
        constructor
        · rintro (⟨u, v, huv, hu, hv⟩ | hq)
          · exact ⟨c :: u, v, by simp [huv], (ihp u).mp hu, hv⟩
          · exact ⟨[], c :: s, rfl, (nullable_iff p).mp hn, (ihq s).mp hq⟩
        · rintro ⟨u, v, huv, hu, hv⟩
          cases u with
          | nil =>
              right
              simp at huv
              subst huv
              exact (ihq s).mpr hv
          | cons d u' =>
              left
              have hd : d = c := (List.cons.injEq d _ c _ ▸ huv.symm).1
              have hs : s = u' ++ v := by
                have := huv
                simp [List.cons_append] at this
                exact this.2
              subst hd
              exact ⟨u', v, hs, (ihp u').mpr hu, hv⟩
      · simp only [derivC, if_neg hn, Lang]
        constructor
        · rintro ⟨u, v, huv, hu, hv⟩
          exact ⟨c :: u, v, by simp [huv], (ihp u).mp hu, hv⟩
        · rintro ⟨u, v, huv, hu, hv⟩
          cases u with
          | nil =>
              exfalso
              exact hn ((nullable_iff p).mpr hu)
          | cons d u' =>
              have hd : d = c := (List.cons.injEq d _ c _ ▸ huv.symm).1
              have hs : s = u' ++ v := by
                have := huv
                simp [List.cons_append] at this
                exact this.2
              subst hd
              exact ⟨u', v, hs, (ihp u').mpr hu, hv⟩
  | alt p q ihp ihq =>
      intro s
      simp [derivC, Lang, ihp, ihq]

theorem rmatch_iff (s : List Char) : ∀ r : Re, rmatch r s = true ↔ Lang r s := by
  induction s with
  | nil => intro r; simpa [rmatch] using nullable_iff r
  | cons c s ih =>
      intro r
      have : rmatch r (c :: s) = rmatch (derivC r c) s := by
        simp [rmatch, List.foldl_cons]
      rw [this, ih (derivC r c)]
      exact deriv_lang r c s

theorem lexPat_nil : lexPat [] = [] := by
  rw [lexPat.eq_def]

theorem lexPat_bs (d : Char) (l : List Char) :
    lexPat ('\\' :: d :: l) = Tok.tchr d :: lexPat l := by
  rw [lexPat.eq_def]; simp

theorem lexPat_dot (l : List Char) : lexPat ('.' :: l) = Tok.tdot :: lexPat l := by
  rw [lexPat.eq_def]; simp

theorem lexPat_star (l : List Char) : lexPat ('*' :: l) = Tok.tstar :: lexPat l := by
  rw [lexPat.eq_def]; simp

theorem lexPat_caret (l : List Char) : lexPat ('^' :: l) = lexPat l := by
  rw [lexPat.eq_def]; simp

theorem lexPat_dollar (l : List Char) : lexPat ('$' :: l) = lexPat l := by
  rw [lexPat.eq_def]; simp

theorem lexPat_other (c : Char) (l : List Char) (h1 : ¬(c = '\\')) (h2 : ¬(c = '.'))
    (h3 : ¬(c = '*')) (h4 : ¬(c = '^' ∨ c = '$')) :
    lexPat (c :: l) = Tok.tchr c :: lexPat l := by
  rw [lexPat.eq_def]; simp [h1, h2, h3, h4]

theorem lexPat_escape (bl : List Char) (rest : List Char) :
    lexPat (escapeL bl ++ rest) = bl.map Tok.tchr ++ lexPat rest := by
  induction bl with
  | nil => simp [escapeL]
  | cons c bl ih =>
      by_cases h : c ∈ reSpecials
      · simp only [escapeL, if_pos h, List.cons_append, List.map_cons]
        rw [lexPat_bs, ih]
      · have h1 : ¬(c = '\\') := by rintro rfl; exact h (by decide)
        have h2 : ¬(c = '.') := by rintro rfl; exact h (by decide)
        have h3 : ¬(c = '*') := by rintro rfl; exact h (by decide)
        have h4 : ¬(c = '^' ∨ c = '$') := by
          rintro (rfl | rfl) <;> exact h (by decide)
        simp only [escapeL, if_neg h, List.cons_append, List.map_cons]
        rw [lexPat_other c _ h1 h2 h3 h4, ih]

theorem lexPat_plain (l : List Char) (h : ∀ c ∈ l, c ∉ reSpecials) (rest : List Char) :
    lexPat (l ++ rest) = l.map Tok.tchr ++ lexPat rest := by
  induction l with
  | nil => simp
  | cons c l ih =>
      have hc : c ∉ reSpecials := h c (List.mem_cons_self c l)
      have h1 : ¬(c = '\\') := by rintro rfl; exact hc (by decide)
      have h2 : ¬(c = '.') := by rintro rfl; exact hc (by decide)
      have h3 : ¬(c = '*') := by rintro rfl; exact hc (by decide)
      have h4 : ¬(c = '^' ∨ c = '$') := by
        rintro (rfl | rfl) <;> exact hc (by decide)
      simp only [List.cons_append, List.map_cons]
      rw [lexPat_other c _ h1 h2 h3 h4]
      rw [ih (fun d hd => h d (List.mem_cons_of_mem _ hd))]

theorem parseToks_cons_tchr (c : Char) (l : List Tok) (h : l.head? ≠ some Tok.tstar) :
    parseToks (Tok.tchr c :: l) = Re.seq (.lit (.achr c)) (parseToks l) := by
  cases l with
  | nil => simp [parseToks]
  | cons t ts =>
      cases t with
      | tchr d => simp [parseToks]
      | tdot => simp [parseToks]
      | tstar => exact absurd rfl h

theorem parseToks_tchrs (bl : List Char) (toks : List Tok)
    (h : toks.head? ≠ some Tok.tstar) :
    parseToks (bl.map Tok.tchr ++ toks) = seqLits bl (parseToks toks) := by
  induction bl with
  | nil => simp [seqLits]
  | cons c bl ih =>
      have hhead : (bl.map Tok.tchr ++ toks).head? ≠ some Tok.tstar := by
        cases bl with
        | nil => simpa using h
        | cons d bl2 => simp
      simp only [List.map_cons, List.cons_append]
      rw [parseToks_cons_tchr c _ hhead, ih]
      simp [seqLits]

theorem lang_seqLits (l : List Char) (k : Re) :
    ∀ s, Lang (seqLits l k) s ↔ ∃ t, s = l ++ t ∧ Lang k t := by
  induction l with
  | nil => intro s; simp [seqLits]
  | cons c l ih =>
      intro s
      show Lang (.seq (.lit (.achr c)) (seqLits l k)) s ↔ _
      simp only [Lang]
      constructor
      · rintro ⟨u, v, huv, ⟨d, hu, hm⟩, hv⟩
        subst hu
        have hd : d = c := by simpa [amatch] using hm
        subst hd
        rcases (ih v).mp hv with ⟨t, hvt, hk⟩
        exact ⟨t, by simp [huv, hvt], hk⟩
      · rintro ⟨t, hst, hk⟩
        refine ⟨[c], l ++ t, by simp [hst], ⟨c, rfl, by simp [amatch]⟩, ?_⟩
        exact (ih (l ++ t)).mpr ⟨t, rfl, hk⟩

/-- Full characterization of the generated matcher: escaping makes every
character of the base literal, so the pattern `^base.*\.ext$` accepts exactly
the strings of the form `base ++ mid ++ "." ++ ext`. -/

theorem pymatch_iff (base ext name : String) (hext : ∀ c ∈ ext.data, c ∉ reSpecials) :
    pymatch base ext name = true ↔
      ∃ u : List Char, name.data = base.data ++ u ++ '.' :: ext.data := by
  have hdata : (pyPattern (escape base) ext).data
      = '^' :: (escapeL base.data ++ ('.' :: '*' :: '\\' :: '.' :: (ext.data ++ ['$']))) := by
    simp [pyPattern, escape, String.data_append]
  have hlex : lexPat (pyPattern (escape base) ext).data
      = base.data.map Tok.tchr
        ++ (Tok.tdot :: Tok.tstar :: Tok.tchr '.' :: ext.data.map Tok.tchr) := by
    rw [hdata, lexPat_caret, lexPat_escape, lexPat_dot, lexPat_star, lexPat_bs,
      lexPat_plain ext.data hext ['$'], lexPat_dollar, lexPat_nil]
    simp
  have hparse : parseToks (lexPat (pyPattern (escape base) ext).data)
      = seqLits base.data (.seq (.star .adot) (seqLits ('.' :: ext.data) .eps)) := by
    rw [hlex]
    rw [parseToks_tchrs base.data _ (by simp)]
    rw [show parseToks (Tok.tdot :: Tok.tstar :: Tok.tchr '.' :: ext.data.map Tok.tchr)
          = .seq (.star .adot) (parseToks (Tok.tchr '.' :: ext.data.map Tok.tchr)) by
        simp [parseToks]]
    rw [show (Tok.tchr '.' :: ext.data.map Tok.tchr)
          = (('.' :: ext.data).map Tok.tchr ++ []) by simp]
    rw [parseToks_tchrs ('.' :: ext.data) [] (by simp)]
    rfl
  rw [pymatch, hparse, rmatch_iff]
  rw [lang_seqLits]
  constructor
  · rintro ⟨t, hnt, hlang⟩
    simp only [Lang] at hlang
    rcases hlang with ⟨u, v, htuv, hstar, hv⟩
    rcases (lang_seqLits ('.' :: ext.data) .eps v).mp hv with ⟨w, hvw, hw⟩
    simp only [Lang] at hw
    subst hw
    refine ⟨u, ?_⟩
    simp only [hnt, htuv, hvw]
    simp
  · rintro ⟨u, hn⟩
    refine ⟨u ++ '.' :: ext.data, by simpa using hn, ?_⟩
    simp only [Lang]
    refine ⟨u, '.' :: ext.data, rfl, ?_, ?_⟩
    · intro c hc; simp [amatch]
    · exact (lang_seqLits ('.' :: ext.data) .eps _).mpr ⟨[], by simp, rfl⟩

/-- String-level version of `pymatch_iff`. -/

theorem pymatch_iff_str (base ext name : String) (hext : ∀ c ∈ ext.data, c ∉ reSpecials) :
    pymatch base ext name = true ↔
      ∃ mid : String, name = base ++ mid ++ "." ++ ext := by
  rw [pymatch_iff base ext name hext]
  constructor
  · rintro ⟨u, hu⟩
    refine ⟨String.mk u, String.ext ?_⟩
    simp [String.data_append, hu]
  · rintro ⟨mid, rfl⟩
    exact ⟨mid.data, by simp [String.data_append]⟩

theorem inputsOf_length (l : List (String × String)) : (inputsOf l).length = 2 * l.length := by
  induction l with
  | nil => rfl
  | cons p rest ih => simp [inputsOf, List.flatMap_cons] at ih ⊢; omega

theorem addAudio_eq (l : List (String × String)) :
    ∀ (inputs maps meta : List String) (si : Nat),
      addAudio inputs maps meta si l
        = (inputs ++ inputsOf l, maps ++ mapsFrom ":a" (inputs.length / 2) l,
           meta ++ metaTags "-metadata:s:a:" si l, si + l.length) := by
  induction l with
  | nil =>
      intro inputs maps meta si
      simp [addAudio, inputsOf, mapsFrom, metaTags]
  | cons p l ih =>
      intro inputs maps meta si
      obtain ⟨f, g⟩ := p
      rw [show addAudio inputs maps meta si ((f, g) :: l)
            = addAudio (inputs ++ ["-i", f])
                (maps ++ ["-map", toString ((inputs ++ ["-i", f]).length / 2 - 1) ++ ":a"])
                (meta ++ ["-metadata:s:a:" ++ toString si, "language=rus",
                          "-metadata:s:a:" ++ toString si, "title=" ++ g])
                (si + 1) l from rfl]
      rw [ih]
      have hlen : (inputs ++ ["-i", f]).length = inputs.length + 2 := by simp
      have h1 : (inputs.length + 2) / 2 - 1 = inputs.length / 2 := by omega
      have h2 : (inputs.length + 2) / 2 = inputs.length / 2 + 1 := by omega
      simp only [hlen, h1, h2, Prod.mk.injEq]
      refine ⟨?_, ?_, ?_, ?_⟩
      · simp [inputsOf, List.flatMap_cons, List.append_assoc]
      · simp [mapsFrom, List.append_assoc]
      · simp [metaTags, List.append_assoc]
      · simp only [List.length_cons]
        omega

theorem addSubs_eq (l : List (String × String)) :
    ∀ (inputs maps meta : List String) (si : Nat),
      addSubs inputs maps meta si l
        = (inputs ++ inputsOf l, maps ++ mapsFrom ":s" (inputs.length / 2) l,
           meta ++ metaTags "-metadata:s:s:" si l, si + l.length) := by
  induction l with
  | nil =>
      intro inputs maps meta si
      simp [addSubs, inputsOf, mapsFrom, metaTags]
  | cons p l ih =>
      intro inputs maps meta si
      obtain ⟨f, g⟩ := p
      rw [show addSubs inputs maps meta si ((f, g) :: l)
            = addSubs (inputs ++ ["-i", f])
                (maps ++ ["-map", toString ((inputs ++ ["-i", f]).length / 2 - 1) ++ ":s"])
                (meta ++ ["-metadata:s:s:" ++ toString si, "language=rus",
                          "-metadata:s:s:" ++ toString si, "title=" ++ g])
                (si + 1) l from rfl]
      rw [ih]
      have hlen : (inputs ++ ["-i", f]).length = inputs.length + 2 := by simp
      have h1 : (inputs.length + 2) / 2 - 1 = inputs.length / 2 := by omega
      have h2 : (inputs.length + 2) / 2 = inputs.length / 2 + 1 := by omega
      simp only [hlen, h1, h2, Prod.mk.injEq]
      refine ⟨?_, ?_, ?_, ?_⟩
      · simp [inputsOf, List.flatMap_cons, List.append_assoc]
      · simp [mapsFrom, List.append_assoc]
      · simp [metaTags, List.append_assoc]
      · simp only [List.length_cons]
        omega

theorem buildCmd_eq (videoPath destDir vfn : String) (audio subs : List (String × String)) :
    buildCmd videoPath destDir vfn audio subs
      = ["ffmpeg", "-y", "-i", videoPath] ++ inputsOf audio ++ inputsOf subs
        ++ ["-map", "0:v", "-map", "0:a"] ++ mapsFrom ":a" 1 audio
        ++ mapsFrom ":s" (1 + audio.length) subs
        ++ ["-c:v", "copy", "-c:a", "copy", "-c:s", "copy"]
        ++ ["-metadata:s:v:0", "language=jpn", "-metadata:s:a:0", "language=jpn"]
        ++ metaTags "-metadata:s:a:" 1 audio ++ metaTags "-metadata:s:s:" 0 subs
        ++ [destDir ++ "/" ++ vfn] := by
  rw [buildCmd, addAudio_eq, addSubs_eq]
  have hlen : ((["-i", videoPath] : List String) ++ inputsOf audio).length
      = 2 + 2 * audio.length := by simp [inputsOf_length]; omega
  have h1 : (2 + 2 * audio.length) / 2 = 1 + audio.length := by omega
  simp only [hlen, h1]
  simp [List.append_assoc]

theorem metaTags_drop (pre : String) (l : List (String × String)) :
    ∀ (si k : Nat), (metaTags pre si l).drop (4 * k) = metaTags pre (si + k) (l.drop k) := by
  induction l with
  | nil => intro si k; simp [metaTags]
  | cons p l ih =>
      intro si k
      obtain ⟨f, g⟩ := p
      cases k with
      | zero => simp
      | succ k =>
          have hmt : metaTags pre si ((f, g) :: l)
              = (pre ++ toString si) :: "language=rus" :: (pre ++ toString si)
                :: ("title=" ++ g) :: metaTags pre (si + 1) l := by
            simp [metaTags]
          rw [hmt, show 4 * (k + 1) = (((4 * k + 1) + 1) + 1) + 1 by ring]
          rw [List.drop_succ_cons, List.drop_succ_cons, List.drop_succ_cons,
            List.drop_succ_cons, ih (si + 1) k]
          rw [show si + 1 + k = si + (k + 1) by omega, List.drop_succ_cons]

theorem metaTags_get (pre : String) (l : List (String × String)) (si k : Nat)
    (h : k < l.length) :
    (metaTags pre si l)[4 * k]? = some (pre ++ toString (si + k))
    ∧ (metaTags pre si l)[4 * k + 1]? = some "language=rus"
    ∧ (metaTags pre si l)[4 * k + 2]? = some (pre ++ toString (si + k))
    ∧ (metaTags pre si l)[4 * k + 3]? = some ("title=" ++ (l.get ⟨k, h⟩).2) := by
  have hdrop : l.drop k = l.get ⟨k, h⟩ :: l.drop (k + 1) := List.drop_eq_getElem_cons h
  have hmt : metaTags pre (si + k) (l.drop k)
      = (pre ++ toString (si + k)) :: "language=rus" :: (pre ++ toString (si + k))
        :: ("title=" ++ (l.get ⟨k, h⟩).2) :: metaTags pre (si + k + 1) (l.drop (k + 1)) := by
    rw [hdrop]
    simp [metaTags]
  refine ⟨?_, ?_, ?_, ?_⟩
  · rw [show 4 * k = 4 * k + 0 by omega, ← List.getElem?_drop, metaTags_drop, hmt]
    simp
  · rw [show (4 * k + 1 : Nat) = 4 * k + 1 by omega, ← List.getElem?_drop, metaTags_drop, hmt]
    simp
  · rw [show (4 * k + 2 : Nat) = 4 * k + 2 by omega, ← List.getElem?_drop, metaTags_drop, hmt]
    simp
  · rw [show (4 * k + 3 : Nat) = 4 * k + 3 by omega, ← List.getElem?_drop, metaTags_drop, hmt]
    simp

/-! ## Structure of the selection warnings and traces -/

theorem selectNamed_warnings (root : List FSEntry) (cls : String) :
    ∀ gs : List String, ∀ e ∈ (selectNamed root cls gs).2, ∃ g, e = Ev.warnGroupMissing cls g := by
  intro gs
  induction gs with
  | nil => intro e he; simp [selectNamed] at he
  | cons g gs ih =>
      intro e he
      rw [selectNamed] at he
      rcases hf : root.find? (fun x => x.name == g && x.isDir) with _ | entry
      · rw [hf] at he
        simp only [List.mem_cons] at he
        rcases he with rfl | he
        · exact ⟨g, rfl⟩
        · exact ih e he
      · rw [hf] at he
        exact ih e he

theorem selectGroups_warnings (root : List FSEntry) (cls : String)
    (allow : Option (List String)) :
    ∀ e ∈ (selectGroups root cls allow).2, ∃ g, e = Ev.warnGroupMissing cls g := by
  intro e he
  cases allow with
  | none => simp [selectGroups] at he
  | some gs =>
      by_cases hgs : gs = []
      · simp [selectGroups, hgs] at he
      · rw [selectGroups] at he
        simp only [if_neg hgs] at he
        exact selectNamed_warnings root cls gs e he

theorem searchClass_warnings (source cls : String) (root : List FSEntry)
    (allow : Option (List String)) (base ext : String) :
    ∀ e ∈ (searchClass source cls root allow base ext).2, ∃ g, e = Ev.warnGroupMissing cls g := by
  intro e he
  exact selectGroups_warnings root cls allow e he

theorem muxCalls_append (a b : List Ev) : muxCalls (a ++ b) = muxCalls a ++ muxCalls b := by
  simp [muxCalls]

theorem muxCalls_warnings (source cls : String) (root : List FSEntry)
    (allow : Option (List String)) (base ext : String) :
    muxCalls (searchClass source cls root allow base ext).2 = [] := by
  rw [muxCalls, List.filterMap_eq_nil_iff]
  intro e he
  rcases searchClass_warnings source cls root allow base ext e he with ⟨g, rfl⟩
  rfl

theorem takeWhile_all_append (p : Char → Bool) (a b : List Char)
    (h : ∀ c ∈ a, p c = true) : (a ++ b).takeWhile p = a ++ b.takeWhile p := by
  induction a with
  | nil => simp
  | cons c a ih =>
      have hc : p c = true := h c (List.mem_cons_self c a)
      simp only [List.cons_append, List.takeWhile_cons, hc, if_pos]
      rw [ih (fun d hd => h d (List.mem_cons_of_mem _ hd))]

theorem firstDigitRun_skip (pre : List Char) (l : List Char)
    (h : ∀ c ∈ pre, c.isDigit = false) : firstDigitRun (pre ++ l) = firstDigitRun l := by
  induction pre with
  | nil => simp
  | cons c pre ih =>
      have hc : c.isDigit = false := h c (List.mem_cons_self c pre)
      simp only [List.cons_append]
      rw [firstDigitRun, if_neg (by simp [hc])]
      exact ih (fun d hd => h d (List.mem_cons_of_mem _ hd))

theorem firstDigitRun_run (run post : List Char) (hne : run ≠ [])
    (hrun : ∀ c ∈ run, c.isDigit = true)
    (hpost : post.takeWhile Char.isDigit = []) :
    firstDigitRun (run ++ post) = some run := by
  cases run with
  | nil => exact absurd rfl hne
  | cons d run2 =>
      have hd : d.isDigit = true := hrun d (List.mem_cons_self d run2)
      simp only [List.cons_append]
      rw [firstDigitRun, if_pos (by simp [hd])]
      have h2 : (run2 ++ post).takeWhile Char.isDigit = run2 ++ post.takeWhile Char.isDigit :=
        takeWhile_all_append _ run2 post (fun c hc => hrun c (List.mem_cons_of_mem _ hc))
      rw [h2, hpost, List.append_nil]

theorem splitextBase_append (stem ext2 : String) (hext : ∀ c ∈ ext2.data, c ≠ '.')
    (hstem : ∃ c ∈ stem.data, c ≠ '.') : splitextBase (stem ++ "." ++ ext2) = stem := by
  have hdata : (stem ++ "." ++ ext2).data = stem.data ++ '.' :: ext2.data := by
    simp [String.data_append]
  rw [splitextBase, hdata]
  have hrev : (stem.data ++ '.' :: ext2.data).reverse
      = ext2.data.reverse ++ '.' :: stem.data.reverse := by
    simp
  have hafter : (stem.data ++ '.' :: ext2.data).reverse.takeWhile (fun c => c != '.')
      = ext2.data.reverse := by
    rw [hrev, takeWhile_all_append _ _ _ (by
      intro c hc
      simp only [bne_iff_ne, ne_eq, decide_eq_true_eq]
      exact hext c (List.mem_reverse.mp hc))]
    simp [List.takeWhile_cons]
  rw [splitextBaseL]
  simp only [hafter]
  have hlen : ext2.data.reverse.length ≠ (stem.data ++ '.' :: ext2.data).length := by
    simp
    omega
  rw [if_neg hlen]
  have htake : (stem.data ++ '.' :: ext2.data).length - ext2.data.reverse.length - 1
      = stem.data.length := by
    simp
    omega
  rw [htake]
  have hstemtake : (stem.data ++ '.' :: ext2.data).take stem.data.length = stem.data :=
    List.take_left stem.data ('.' :: ext2.data)
  rw [hstemtake]
  rw [if_pos (List.any_eq_true.mpr (by
    rcases hstem with ⟨c, hc, hne⟩
    exact ⟨c, hc, by simpa using hne⟩))]

theorem selectNamed_eq (root : List FSEntry) (cls : String) :
    ∀ gs : List String,
      selectNamed root cls gs
        = (gs.filterMap (fun g =>
              (root.find? (fun e => e.name == g && e.isDir)).map (fun e => (g, e.listing))),
           (gs.filter (fun g =>
              (root.find? (fun e => e.name == g && e.isDir)).isNone)).map
             (Ev.warnGroupMissing cls)) := by
  intro gs
  induction gs with
  | nil => rfl
  | cons g gs ih =>
      rw [selectNamed, ih]
      rcases hf : root.find? (fun e => e.name == g && e.isDir) with _ | e
      · simp [List.filterMap_cons, List.filter_cons, hf]
      · simp [List.filterMap_cons, List.filter_cons, hf]

theorem processVideo_run (vp sd dd : String) (aR sR : List FSEntry)
    (aA aS : Option (List String)) (me : Nat) (ms : String)
    (h : ¬((searchClass sd "RUS Sound" aR aA (splitextBase (basename vp)) "mka").1 = []
        ∧ (searchClass sd "RUS Subs" sR aS (splitextBase (basename vp)) "ass").1 = [])) :
    processVideo vp sd dd aR sR aA aS false me ms
      = (searchClass sd "RUS Sound" aR aA (splitextBase (basename vp)) "mka").2
        ++ ((searchClass sd "RUS Subs" sR aS (splitextBase (basename vp)) "ass").2
          ++ ([Ev.mkdirDest dd,
               Ev.runMux (buildCmd vp dd (basename vp)
                 (searchClass sd "RUS Sound" aR aA (splitextBase (basename vp)) "mka").1
                 (searchClass sd "RUS Subs" sR aS (splitextBase (basename vp)) "ass").1)]
            ++ (if me = 0 then
                  [Ev.logSuccess ("Файл успешно сохранен: " ++ dd ++ "/" ++ basename vp)]
                else
                  [Ev.logError ("Ошибка при обработке файла " ++ basename vp ++ ": " ++ ms)]))) := by
  simp only [processVideo]
  rw [if_neg (show ¬((false : Bool) = true) by simp)]
  rw [if_neg h]
  simp [List.append_assoc]

/-! ## Claims -/

/-- Claim C1: under the numeric-key strategy, for every filename containing
a run of decimal digits, the EpisodeKey is the first maximal digit run with
leading zeros stripped; a video matches an auxiliary file iff their stripped
keys are string-equal; in particular "Show - 5.mkv" matches "05_TeamX.mka"
because both keys equal "5". -/

theorem numeric_key_strategy :
    (∀ (s : String) (pre run post : List Char),
        s.data = pre ++ run ++ post →
        (∀ c ∈ pre, c.isDigit = false) →
        run ≠ [] →
        (∀ c ∈ run, c.isDigit = true) →
        post.takeWhile Char.isDigit = [] →
        episodeKeyNum s = some (String.mk (run.dropWhile (fun c => c == '0'))))
    ∧ (∀ v a : String, numericMatches v a = true ↔
        ∃ k, episodeKeyNum v = some k ∧ episodeKeyNum a = some k)
    ∧ numericMatches "Show - 5.mkv" "05_TeamX.mka" = true
    ∧ episodeKeyNum "Show - 5.mkv" = some "5"
    ∧ episodeKeyNum "05_TeamX.mka" = some "5"
    ∧ episodeKeyNum "007" = episodeKeyNum "7" := by
  refine ⟨?_, ?_, by decide, by decide, by decide, by decide⟩
  · intro s pre run post hs hpre hne hrun hpost
    rw [episodeKeyNum, hs, List.append_assoc, firstDigitRun_skip pre _ hpre,
      firstDigitRun_run run post hne hrun hpost]
    rfl
  · intro v a
    rw [numericMatches]
    rcases hv : episodeKeyNum v with _ | kv <;> rcases ha : episodeKeyNum a with _ | ka
    · simp
    · simp
    · simp
    · simp only [beq_iff_eq]
      constructor
      · rintro rfl; exact ⟨kv, rfl, rfl⟩
      · rintro ⟨k, hk1, hk2⟩
        injection hk1 with hk1
        injection hk2 with hk2
        rw [hk1, hk2]

/-- Witness for C1: the key of "x007y" is its first digit run "007" with
leading zeros stripped. -/

theorem numeric_key_strategy_witness :
    episodeKeyNum "x007y" = some (String.mk (['0', '0', '7'].dropWhile (fun c => c == '0'))) :=
  numeric_key_strategy.1 "x007y" ['x'] ['0', '0', '7'] ['y'] (by decide) (by decide)
    (by decide) (by decide) (by decide)

/-- Claim C2: the audio search scans, besides the group subdirectories, one
special nested subdirectory for on-screen-text tracks, and merges its
matching files into the audio result labelled with that subdirectory's own
name. -/

theorem audio_signs_subdirectory (source : String) (root : List FSEntry)
    (allow : Option (List String)) (base signs : String) (signsListing : List String) :
    audioSearchWithSigns source root allow base signs signsListing
      = (searchClass source "RUS Sound" root allow base "mka").1
        ++ (signsListing.filter (fun n => pymatch base "mka" n)).map
            (fun f => (source ++ "/RUS Sound/" ++ signs ++ "/" ++ f, signs))
    ∧ (∀ pr : String × String,
        pr ∈ audioSearchWithSigns source root allow base signs signsListing →
        pr ∉ (searchClass source "RUS Sound" root allow base "mka").1 →
        pr.2 = signs)
    ∧ (∀ n ∈ signsListing, pymatch base "mka" n = true →
        (source ++ "/RUS Sound/" ++ signs ++ "/" ++ n, signs)
          ∈ audioSearchWithSigns source root allow base signs signsListing) := by
  refine ⟨rfl, ?_, ?_⟩
  · intro pr hin hnot
    rw [audioSearchWithSigns] at hin
    rcases List.mem_append.mp hin with h | h
    · exact absurd h hnot
    · rcases List.mem_map.mp h with ⟨f, hf, rfl⟩
      rfl
  · intro n hn hm
    rw [audioSearchWithSigns]
    refine List.mem_append.mpr (Or.inr ?_)
    exact List.mem_map.mpr ⟨n, List.mem_filter.mpr ⟨hn, hm⟩, rfl⟩

/-- Witness for C2: a matching file in the on-screen-text subdirectory is
merged into the audio result with that subdirectory's name as group label. -/

theorem audio_signs_subdirectory_witness :
    ("src/RUS Sound/Signs/Show - 1.mka", "Signs")
      ∈ audioSearchWithSigns "src" [] none "Show - 1" "Signs" ["Show - 1.mka"] :=
  (audio_signs_subdirectory "src" [] none "Show - 1" "Signs" ["Show - 1.mka"]).2.2
    "Show - 1.mka" (by decide) (by decide)

/-- Claim C3: in every MuxPlan, audio metadata stream indices start at 1 and
increase by exactly 1 per matched audio asset, subtitle indices start at 0
likewise, no index is reused within a class, and the primary video's video
and audio streams at output index 0 are tagged language=jpn unconditionally,
whatever the asset lists are. -/

theorem mux_plan_stream_indices (v d f : String) (audio subs : List (String × String))
    (k : Nat) :
    buildCmd v d f audio subs
      = ["ffmpeg", "-y", "-i", v] ++ inputsOf audio ++ inputsOf subs
        ++ ["-map", "0:v", "-map", "0:a"] ++ mapsFrom ":a" 1 audio
        ++ mapsFrom ":s" (1 + audio.length) subs
        ++ ["-c:v", "copy", "-c:a", "copy", "-c:s", "copy"]
        ++ ["-metadata:s:v:0", "language=jpn", "-metadata:s:a:0", "language=jpn"]
        ++ metaTags "-metadata:s:a:" 1 audio ++ metaTags "-metadata:s:s:" 0 subs
        ++ [d ++ "/" ++ f]
    ∧ (∀ h : k < audio.length,
        (metaTags "-metadata:s:a:" 1 audio)[4 * k]?
            = some ("-metadata:s:a:" ++ toString (1 + k))
        ∧ (metaTags "-metadata:s:a:" 1 audio)[4 * k + 1]? = some "language=rus"
        ∧ (metaTags "-metadata:s:a:" 1 audio)[4 * k + 2]?
            = some ("-metadata:s:a:" ++ toString (1 + k))
        ∧ (metaTags "-metadata:s:a:" 1 audio)[4 * k + 3]?
            = some ("title=" ++ (audio.get ⟨k, h⟩).2))
    ∧ (∀ h : k < subs.length,
        (metaTags "-metadata:s:s:" 0 subs)[4 * k]?
            = some ("-metadata:s:s:" ++ toString k)
        ∧ (metaTags "-metadata:s:s:" 0 subs)[4 * k + 1]? = some "language=rus"
        ∧ (metaTags "-metadata:s:s:" 0 subs)[4 * k + 2]?
            = some ("-metadata:s:s:" ++ toString k)
        ∧ (metaTags "-metadata:s:s:" 0 subs)[4 * k + 3]?
            = some ("title=" ++ (subs.get ⟨k, h⟩).2)) := by
  refine ⟨buildCmd_eq v d f audio subs, ?_, ?_⟩
  · intro h
    exact metaTags_get "-metadata:s:a:" audio 1 k h
  · intro h
    simpa using metaTags_get "-metadata:s:s:" subs 0 k h

/-- Witness for C3: with one audio and one subtitle asset, the first audio
tag carries output stream index 1. -/

theorem mux_plan_stream_indices_witness :
    (0 < ([("f", "G")] : List (String × String)).length)
    ∧ (metaTags "-metadata:s:a:" 1 [("f", "G")])[4 * 0]?
        = some ("-metadata:s:a:" ++ toString (1 + 0)) :=
  ⟨by decide,
   ((mux_plan_stream_indices "v" "d" "o" [("f", "G")] [("s", "H")] 0).2.1 (by decide)).1⟩

/-- Claim C4: for every video with at least one matched asset, the muxer is
invoked exactly once, with the overwrite flag, inputs (video first, then
audio, then subtitles), stream maps (0:v and 0:a first), codec-copy
directives, metadata tags, and a single output path equal to the video's
filename inside the destination directory, in that order. -/

theorem mux_single_invocation (vp sd dd : String) (aR sR : List FSEntry)
    (aA aS : Option (List String)) (me : Nat) (ms : String)
    (h : ¬((searchClass sd "RUS Sound" aR aA (splitextBase (basename vp)) "mka").1 = []
        ∧ (searchClass sd "RUS Subs" sR aS (splitextBase (basename vp)) "ass").1 = [])) :
    muxCalls (processVideo vp sd dd aR sR aA aS false me ms)
      = [["ffmpeg", "-y", "-i", vp]
          ++ inputsOf (searchClass sd "RUS Sound" aR aA (splitextBase (basename vp)) "mka").1
          ++ inputsOf (searchClass sd "RUS Subs" sR aS (splitextBase (basename vp)) "ass").1
          ++ ["-map", "0:v", "-map", "0:a"]
          ++ mapsFrom ":a" 1 (searchClass sd "RUS Sound" aR aA (splitextBase (basename vp)) "mka").1
          ++ mapsFrom ":s"
              (1 + (searchClass sd "RUS Sound" aR aA (splitextBase (basename vp)) "mka").1.length)
              (searchClass sd "RUS Subs" sR aS (splitextBase (basename vp)) "ass").1
          ++ ["-c:v", "copy", "-c:a", "copy", "-c:s", "copy"]
          ++ ["-metadata:s:v:0", "language=jpn", "-metadata:s:a:0", "language=jpn"]
          ++ metaTags "-metadata:s:a:" 1
              (searchClass sd "RUS Sound" aR aA (splitextBase (basename vp)) "mka").1
          ++ metaTags "-metadata:s:s:" 0
              (searchClass sd "RUS Subs" sR aS (splitextBase (basename vp)) "ass").1
          ++ [dd ++ "/" ++ basename vp]] := by
  rw [processVideo_run vp sd dd aR sR aA aS me ms h]
  rw [muxCalls_append, muxCalls_warnings, muxCalls_append, muxCalls_warnings]
  by_cases hme : me = 0 <;>
    simp [hme, muxCalls, buildCmd_eq]

/-- Witness for C4: a concrete source tree with one matching audio file
yields exactly one invocation with the documented argument list. -/

theorem mux_single_invocation_witness :
    muxCalls (processVideo "src/Show - 05.mkv" "src" "dest"
        [⟨"TeamX", true, ["Show - 05_TeamX.mka", "other.mka"]⟩] [] none none false 0 "")
      = [["ffmpeg", "-y", "-i", "src/Show - 05.mkv"]
          ++ inputsOf (searchClass "src" "RUS Sound"
              [⟨"TeamX", true, ["Show - 05_TeamX.mka", "other.mka"]⟩] none
              (splitextBase (basename "src/Show - 05.mkv")) "mka").1
          ++ inputsOf (searchClass "src" "RUS Subs" [] none
              (splitextBase (basename "src/Show - 05.mkv")) "ass").1
          ++ ["-map", "0:v", "-map", "0:a"]
          ++ mapsFrom ":a" 1 (searchClass "src" "RUS Sound"
              [⟨"TeamX", true, ["Show - 05_TeamX.mka", "other.mka"]⟩] none
              (splitextBase (basename "src/Show - 05.mkv")) "mka").1
          ++ mapsFrom ":s"
              (1 + (searchClass "src" "RUS Sound"
                [⟨"TeamX", true, ["Show - 05_TeamX.mka", "other.mka"]⟩] none
                (splitextBase (basename "src/Show - 05.mkv")) "mka").1.length)
              (searchClass "src" "RUS Subs" [] none
                (splitextBase (basename "src/Show - 05.mkv")) "ass").1
          ++ ["-c:v", "copy", "-c:a", "copy", "-c:s", "copy"]
          ++ ["-metadata:s:v:0", "language=jpn", "-metadata:s:a:0", "language=jpn"]
          ++ metaTags "-metadata:s:a:" 1 (searchClass "src" "RUS Sound"
              [⟨"TeamX", true, ["Show - 05_TeamX.mka", "other.mka"]⟩] none
              (splitextBase (basename "src/Show - 05.mkv")) "mka").1
          ++ metaTags "-metadata:s:s:" 0 (searchClass "src" "RUS Subs" [] none
              (splitextBase (basename "src/Show - 05.mkv")) "ass").1
          ++ ["dest" ++ "/" ++ basename "src/Show - 05.mkv"]] :=
  mux_single_invocation "src/Show - 05.mkv" "src" "dest"
    [⟨"TeamX", true, ["Show - 05_TeamX.mka", "other.mka"]⟩] [] none none 0 "" (by decide)

/-- Claim C5: under the prefix strategy the EpisodeKey is the video's
filename with its extension removed, and an auxiliary file in a group
directory matches iff its filename (case-sensitively) begins with that key
followed by an arbitrary suffix and ends with ".mka" for audio or ".ass" for
subtitles; matching is independent within each group directory. -/

theorem prefix_strategy_matching :
    (∀ stem ext2 : String, (∀ c ∈ ext2.data, c ≠ '.') → (∃ c ∈ stem.data, c ≠ '.') →
        splitextBase (stem ++ "." ++ ext2) = stem)
    ∧ (∀ base name : String,
        pymatch base "mka" name = true ↔ ∃ mid : String, name = base ++ mid ++ ".mka")
    ∧ (∀ base name : String,
        pymatch base "ass" name = true ↔ ∃ mid : String, name = base ++ mid ++ ".ass")
    ∧ (∀ (source cls : String) (root : List FSEntry) (allow : Option (List String))
        (base ext p g : String),
        (p, g) ∈ (searchClass source cls root allow base ext).1 ↔
          ∃ listing, (g, listing) ∈ (selectGroups root cls allow).1
            ∧ ∃ n ∈ listing, pymatch base ext n = true
              ∧ p = source ++ "/" ++ cls ++ "/" ++ g ++ "/" ++ n) := by
  refine ⟨splitextBase_append, ?_, ?_, ?_⟩
  · intro base name
    rw [pymatch_iff_str base "mka" name (by decide)]
    constructor
    · rintro ⟨mid, rfl⟩
      refine ⟨mid, ?_⟩
      rw [String.append_assoc (base ++ mid) "." "mka"]
      rfl
    · rintro ⟨mid, rfl⟩
      refine ⟨mid, ?_⟩
      rw [String.append_assoc (base ++ mid) "." "mka"]
      rfl
  · intro base name
    rw [pymatch_iff_str base "ass" name (by decide)]
    constructor
    · rintro ⟨mid, rfl⟩
      refine ⟨mid, ?_⟩
      rw [String.append_assoc (base ++ mid) "." "ass"]
      rfl
    · rintro ⟨mid, rfl⟩
      refine ⟨mid, ?_⟩
      rw [String.append_assoc (base ++ mid) "." "ass"]
      rfl
  · intro source cls root allow base ext p g
    constructor
    · intro hin
      simp only [searchClass] at hin
      rcases List.mem_flatMap.mp hin with ⟨gd, hgd, hmem⟩
      obtain ⟨g1, listing⟩ := gd
      rcases List.mem_map.mp hmem with ⟨n, hn, heq⟩
      rcases List.mem_filter.mp hn with ⟨hn1, hn2⟩
      injection heq with he1 he2
      subst he2
      exact ⟨listing, hgd, n, hn1, hn2, he1.symm⟩
    · rintro ⟨listing, hmem, n, hn, hm, rfl⟩
      simp only [searchClass]
      exact List.mem_flatMap.mpr
        ⟨(g, listing), hmem, List.mem_map.mpr ⟨n, List.mem_filter.mpr ⟨hn, hm⟩, rfl⟩⟩

/-- Witness for C5: the EpisodeKey of "Show - 05.mkv" is "Show - 05". -/

theorem prefix_strategy_matching_witness :
    splitextBase ("Show - 05" ++ "." ++ "mkv") = "Show - 05" :=
  prefix_strategy_matching.1 "Show - 05" "mkv" (by decide) (by decide)

/-- Claim C6: a video whose matched audio and subtitle lists are both empty
is skipped with a warning: no muxer invocation occurs and the destination
directory is not created. -/

theorem skip_when_no_matches (vp sd dd : String) (aR sR : List FSEntry)
    (aA aS : Option (List String)) (me : Nat) (ms : String)
    (ha : (searchClass sd "RUS Sound" aR aA (splitextBase (basename vp)) "mka").1 = [])
    (hs : (searchClass sd "RUS Subs" sR aS (splitextBase (basename vp)) "ass").1 = []) :
    processVideo vp sd dd aR sR aA aS false me ms
      = (searchClass sd "RUS Sound" aR aA (splitextBase (basename vp)) "mka").2
        ++ (searchClass sd "RUS Subs" sR aS (splitextBase (basename vp)) "ass").2
        ++ [Ev.warnNoMatches (basename vp)]
    ∧ muxCalls (processVideo vp sd dd aR sR aA aS false me ms) = []
    ∧ (∀ d2 : String, Ev.mkdirDest d2 ∉ processVideo vp sd dd aR sR aA aS false me ms) := by
  have htr : processVideo vp sd dd aR sR aA aS false me ms
      = (searchClass sd "RUS Sound" aR aA (splitextBase (basename vp)) "mka").2
        ++ (searchClass sd "RUS Subs" sR aS (splitextBase (basename vp)) "ass").2
        ++ [Ev.warnNoMatches (basename vp)] := by
    simp only [processVideo]
    rw [if_neg (show ¬((false : Bool) = true) by simp)]
    rw [if_pos ⟨ha, hs⟩]
  refine ⟨htr, ?_, ?_⟩
  · rw [htr, muxCalls_append, muxCalls_append, muxCalls_warnings, muxCalls_warnings]
    simp [muxCalls]
  · intro d2 hmem
    rw [htr] at hmem
    rcases List.mem_append.mp hmem with h1 | h1
    · rcases List.mem_append.mp h1 with h2 | h2
      · rcases searchClass_warnings _ _ _ _ _ _ _ h2 with ⟨g, hg⟩
        exact absurd hg (by simp)
      · rcases searchClass_warnings _ _ _ _ _ _ _ h2 with ⟨g, hg⟩
        exact absurd hg (by simp)
    · simp at h1

/-- Witness for C6: an empty source tree yields the skip warning and no
muxer invocation. -/

theorem skip_when_no_matches_witness :
    processVideo "s/v.mkv" "s" "d" [] [] none none false 0 ""
      = (searchClass "s" "RUS Sound" [] none (splitextBase (basename "s/v.mkv")) "mka").2
        ++ (searchClass "s" "RUS Subs" [] none (splitextBase (basename "s/v.mkv")) "ass").2
        ++ [Ev.warnNoMatches (basename "s/v.mkv")]
    ∧ muxCalls (processVideo "s/v.mkv" "s" "d" [] [] none none false 0 "") = [] :=
  ⟨(skip_when_no_matches "s/v.mkv" "s" "d" [] [] none none 0 "" (by decide) (by decide)).1,
   (skip_when_no_matches "s/v.mkv" "s" "d" [] [] none none 0 "" (by decide) (by decide)).2.1⟩

/-- Claim C7 (amended): with an explicit allow-list, exactly the named
subdirectories that exist are searched, in allow-list order, and each missing
name yields a non-fatal warning while the rest are still searched and the
subtitle class is still processed; without an allow-list, every immediate
subdirectory of the class root whose name does not begin with a dot is
treated as a group (`glob`'s `*` skips dot-names). -/

theorem group_enumeration (root : List FSEntry) (cls : String) (gs : List String)
    (hgs : gs ≠ []) :
    selectGroups root cls (some gs)
      = (gs.filterMap (fun g =>
            (root.find? (fun e => e.name == g && e.isDir)).map (fun e => (g, e.listing))),
         (gs.filter (fun g =>
            (root.find? (fun e => e.name == g && e.isDir)).isNone)).map
           (Ev.warnGroupMissing cls))
    ∧ selectGroups root cls none
      = ((root.filter (fun e => e.isDir && !(e.name.data.head? == some '.'))).map
            (fun e => (e.name, e.listing)), [])
    ∧ processVideo "s/v.mkv" "s" "d" [⟨"TeamY", true, []⟩] [⟨"T", true, ["v_x.ass"]⟩]
        (some ["TeamX"]) none false 0 ""
      = [Ev.warnGroupMissing "RUS Sound" "TeamX", Ev.mkdirDest "d",
         Ev.runMux (buildCmd "s/v.mkv" "d" "v.mkv" [] [("s/RUS Subs/T/v_x.ass", "T")]),
         Ev.logSuccess "Файл успешно сохранен: d/v.mkv"] := by
  refine ⟨?_, rfl, by decide⟩
  rw [selectGroups]
  rw [if_neg hgs]
  exact selectNamed_eq root cls gs

/-- Witness for C7: with allow-list ["TeamX"] over a root containing only
"TeamY", the selection is empty and one missing-group warning is emitted. -/

theorem group_enumeration_witness :
    selectGroups [FSEntry.mk "TeamY" true []] "RUS Sound" (some ["TeamX"])
      = ((["TeamX"] : List String).filterMap (fun g =>
            (([FSEntry.mk "TeamY" true []]).find? (fun e => e.name == g && e.isDir)).map
              (fun e => (g, e.listing))),
         ((["TeamX"] : List String).filter (fun g =>
            (([FSEntry.mk "TeamY" true []]).find? (fun e => e.name == g && e.isDir)).isNone)).map
           (Ev.warnGroupMissing "RUS Sound")) :=
  (group_enumeration [FSEntry.mk "TeamY" true []] "RUS Sound" ["TeamX"] (by decide)).1

/-- Counterexample to C7 as stated: ".TeamX" is an immediate subdirectory of
the audio class root holding a file that matches the video's pattern, yet
with no allow-list it is not treated as a group — `glob`'s `*` skips names
beginning with a dot — so its file is never found. -/

theorem hidden_subdirectory_not_a_group :
    selectGroups [⟨".TeamX", true, ["Show - 1.mka"]⟩] "RUS Sound" none = ([], [])
    ∧ pymatch "Show - 1" "mka" "Show - 1.mka" = true
    ∧ (searchClass "src" "RUS Sound" [⟨".TeamX", true, ["Show - 1.mka"]⟩] none
        "Show - 1" "mka").1 = [] :=
  ⟨by decide, by decide, by decide⟩

/-- Claim C8: when the muxing process exits non-zero, an error record
containing the captured standard error is logged, exactly one invocation was
made (no retry), and the run continues with the remaining videos. -/

theorem mux_failure_recoverable (vp sd dd : String) (aR sR : List FSEntry)
    (aA aS : Option (List String)) (me : Nat) (ms : String) (rest : List Job)
    (h : ¬((searchClass sd "RUS Sound" aR aA (splitextBase (basename vp)) "mka").1 = []
        ∧ (searchClass sd "RUS Subs" sR aS (splitextBase (basename vp)) "ass").1 = []))
    (hme : me ≠ 0) :
    runAll sd dd aR sR aA aS ({ videoPath := vp, muxExit := me, muxErr := ms } :: rest)
      = (searchClass sd "RUS Sound" aR aA (splitextBase (basename vp)) "mka").2
        ++ (searchClass sd "RUS Subs" sR aS (splitextBase (basename vp)) "ass").2
        ++ [Ev.mkdirDest dd,
            Ev.runMux (buildCmd vp dd (basename vp)
              (searchClass sd "RUS Sound" aR aA (splitextBase (basename vp)) "mka").1
              (searchClass sd "RUS Subs" sR aS (splitextBase (basename vp)) "ass").1),
            Ev.logError ("Ошибка при обработке файла " ++ basename vp ++ ": " ++ ms)]
        ++ runAll sd dd aR sR aA aS rest
    ∧ (muxCalls (processVideo vp sd dd aR sR aA aS false me ms)).length = 1
    ∧ (∃ pre : String,
        "Ошибка при обработке файла " ++ basename vp ++ ": " ++ ms = pre ++ ms) := by
  refine ⟨?_, ?_, ⟨"Ошибка при обработке файла " ++ basename vp ++ ": ", rfl⟩⟩
  · rw [runAll]
    rw [processVideo_run vp sd dd aR sR aA aS me ms h]
    rw [if_neg hme]
    simp [List.append_assoc]
  · rw [processVideo_run vp sd dd aR sR aA aS me ms h]
    rw [if_neg hme]
    rw [muxCalls_append, muxCalls_warnings, muxCalls_append, muxCalls_warnings]
    simp [muxCalls]

/-- Witness for C8: a failing muxer run on a concrete tree performs exactly
one invocation. -/

theorem mux_failure_recoverable_witness :
    (muxCalls (processVideo "src/Show - 05.mkv" "src" "dest"
        [⟨"TeamX", true, ["Show - 05_TeamX.mka"]⟩] [] none none false 1 "boom")).length = 1 :=
  (mux_failure_recoverable "src/Show - 05.mkv" "src" "dest"
      [⟨"TeamX", true, ["Show - 05_TeamX.mka"]⟩] [] none none 1 "boom" []
      (by decide) (by decide)).2.1

/-- Claim C9: in check-only mode process_video reports the matched audio and
subtitle assets and returns immediately: no zero-match warning, no
destination-directory creation, and no muxer invocation, for every video
including those with matched assets. -/

theorem check_only_reports (vp sd dd : String) (aR sR : List FSEntry)
    (aA aS : Option (List String)) (me : Nat) (ms : String) :
    processVideo vp sd dd aR sR aA aS true me ms
      = (searchClass sd "RUS Sound" aR aA (splitextBase (basename vp)) "mka").2
        ++ (searchClass sd "RUS Subs" sR aS (splitextBase (basename vp)) "ass").2
        ++ [Ev.report
              (searchClass sd "RUS Sound" aR aA (splitextBase (basename vp)) "mka").1
              (searchClass sd "RUS Subs" sR aS (splitextBase (basename vp)) "ass").1]
    ∧ muxCalls (processVideo vp sd dd aR sR aA aS true me ms) = []
    ∧ (∀ d2 : String, Ev.mkdirDest d2 ∉ processVideo vp sd dd aR sR aA aS true me ms)
    ∧ (∀ v2 : String, Ev.warnNoMatches v2 ∉ processVideo vp sd dd aR sR aA aS true me ms) := by
  have htr : processVideo vp sd dd aR sR aA aS true me ms
      = (searchClass sd "RUS Sound" aR aA (splitextBase (basename vp)) "mka").2
        ++ (searchClass sd "RUS Subs" sR aS (splitextBase (basename vp)) "ass").2
        ++ [Ev.report
              (searchClass sd "RUS Sound" aR aA (splitextBase (basename vp)) "mka").1
              (searchClass sd "RUS Subs" sR aS (splitextBase (basename vp)) "ass").1] := by
    simp only [processVideo]
    rw [if_pos trivial]
  refine ⟨htr, ?_, ?_, ?_⟩
  · rw [htr, muxCalls_append, muxCalls_append, muxCalls_warnings, muxCalls_warnings]
    simp [muxCalls]
  · intro d2 hmem
    rw [htr] at hmem
    rcases List.mem_append.mp hmem with h1 | h1
    · rcases List.mem_append.mp h1 with h2 | h2
      · rcases searchClass_warnings _ _ _ _ _ _ _ h2 with ⟨g, hg⟩
        exact absurd hg (by simp)
      · rcases searchClass_warnings _ _ _ _ _ _ _ h2 with ⟨g, hg⟩
        exact absurd hg (by simp)
    · simp at h1
  · intro v2 hmem
    rw [htr] at hmem
    rcases List.mem_append.mp hmem with h1 | h1
    · rcases List.mem_append.mp h1 with h2 | h2
      · rcases searchClass_warnings _ _ _ _ _ _ _ h2 with ⟨g, hg⟩
        exact absurd hg (by simp)
      · rcases searchClass_warnings _ _ _ _ _ _ _ h2 with ⟨g, hg⟩
        exact absurd hg (by simp)
    · simp at h1

/-- Witness for C9: on a tree with one matched audio file, check-only mode
emits only the report. -/

theorem check_only_reports_witness :
    muxCalls (processVideo "src/Show - 05.mkv" "src" "dest"
        [⟨"TeamX", true, ["Show - 05_TeamX.mka"]⟩] [] none none true 0 "") = [] :=
  (check_only_reports "src/Show - 05.mkv" "src" "dest"
      [⟨"TeamX", true, ["Show - 05_TeamX.mka"]⟩] [] none none 0 "").2.1

/-- Claim C10: the base name is escaped before interpolation into the match
pattern, so metacharacters in it are matched literally: every filename that
literally extends the base name and carries the class extension is accepted,
an accepted filename always literally begins with the base name, and
wildcard readings of ".", "+", "[]" or "()" in the base are rejected. -/

theorem escaped_base_literal :
    (∀ base mid : String, pymatch base "mka" (base ++ mid ++ ".mka") = true)
    ∧ (∀ base name : String, pymatch base "mka" name = true →
        ∃ rest : String, name = base ++ rest)
    ∧ pymatch "a.b" "mka" "aXb.mka" = false
    ∧ pymatch "a+" "mka" "aaa.mka" = false
    ∧ pymatch "a[bc]" "mka" "ab.mka" = false
    ∧ pymatch "Show [v2] (1+1)" "mka" "Show [v2] (1+1).rus.mka" = true := by
  refine ⟨?_, ?_, by decide, by decide, by decide, by decide⟩
  · intro base mid
    rw [pymatch_iff_str base "mka" _ (by decide)]
    refine ⟨mid, ?_⟩
    rw [String.append_assoc (base ++ mid) "." "mka"]
    rfl
  · intro base name h
    rcases (pymatch_iff_str base "mka" name (by decide)).mp h with ⟨mid, rfl⟩
    refine ⟨mid ++ "." ++ "mka", ?_⟩
    rw [String.append_assoc base mid ".", String.append_assoc base (mid ++ ".") "mka",
      String.append_assoc mid "." "mka"]

/-- Witness for C10: an accepted filename literally begins with the base
name "a.b". -/

theorem escaped_base_literal_witness :
    ∃ rest : String, "a.b_x.mka" = "a.b" ++ rest :=
  escaped_base_literal.2.1 "a.b" "a.b_x.mka" (by decide)

end MergeMedia
